import Mathlib

set_option maxRecDepth 40000
set_option maxHeartbeats 2000000

/-!
Verification development for the SecureKit PixelVault steganography design.

The repository ships the web frontend (the PixelVault page that collects a
file, a message and a password and posts them to the backend API); the
embedding engine itself (carrier adapters, bit packer, frame codec,
cryptographic layer, capacity planner and the encode/decode pipeline) is
served by a separate backend process whose code is not part of this tree,
so the engine is modelled here from the specification document and the
frontend is embedded from its source.
-/

namespace SecureKit

/-- Modelled from the spec: the error taxonomy of section 7 plus the
`TruncatedDataError` of the bit-packer contract and the empty-payload
validation failure of the encode pipeline (section 4.6). -/
inductive StegError where
  | insufficientCapacity
  | unknownFormat
  | terminatorNotFound
  | passwordRequired
  | authenticationError
  | unsupportedCarrier
  | truncatedData
  | emptyPayload
  deriving DecidableEq, Repr

/-- Modelled from the spec: the two carrier families, `PV` for pixel
carriers and `JPG` for coefficient carriers. -/
inductive Family where
  | pv
  | jpg
  deriving DecidableEq, Repr

/-- Modelled from the spec: a carrier is either a pixel grid (row-major
list of pixels, each pixel a list of channel samples, R,G,B then an
optional alpha) or a list of 8x8 blocks of quantized DCT coefficients
(each block listed in block-scan order, index 0 being the DC
coefficient). The engine consumes the decoded arrays; the image codec is
out of scope. -/
inductive Carrier where
  | pixel (width height channels : Nat) (pixels : List (List Nat))
  | coeff (blocks : List (List Int))
  deriving DecidableEq, Repr

/-- Family of a carrier: pixel carriers frame with the `PV` tag,
coefficient carriers with the `JPG` tag. -/
def Carrier.family : Carrier → Family
  | .pixel _ _ _ _ => .pv
  | .coeff _ => .jpg

/-! ## Bit packer (spec section 4.1) -/

/-- Modelled from the spec: the eight bits of one byte, most significant
bit first. -/
def byteBits (b : Nat) : List Nat :=
  [b / 128 % 2, b / 64 % 2, b / 32 % 2, b / 16 % 2,
   b / 8 % 2, b / 4 % 2, b / 2 % 2, b % 2]

/-- Modelled from the spec: `bitsOf(bytes)`, the finite bit sequence of a
byte sequence, most significant bit first per byte. -/
def bitsOf : List Nat → List Nat
  | [] => []
  | b :: bs => byteBits b ++ bitsOf bs

/-- Reassemble bytes from bits, eight at a time, most significant first;
a trailing group of fewer than eight bits is discarded (the pipeline
reads whole bytes out of the carrier bit stream). -/
def bytesOfAux : List Nat → List Nat
  | b0 :: b1 :: b2 :: b3 :: b4 :: b5 :: b6 :: b7 :: rest =>
      (128 * b0 + 64 * b1 + 32 * b2 + 16 * b3 + 8 * b4 + 4 * b5 + 2 * b6 + b7)
        :: bytesOfAux rest
  | _ => []

/-- Modelled from the spec: `bytesOf(bits)`, the inverse of `bitsOf`,
failing with `TruncatedDataError` when the bit count is not a multiple
of eight. -/
def bytesOf (bits : List Nat) : Except StegError (List Nat) :=
  if bits.length % 8 = 0 then .ok (bytesOfAux bits) else .error .truncatedData

/-! ## Cryptographic layer (spec section 4.2) -/

/-- Modelled from the spec: `deriveKey(password, salt)`, a deterministic
32-byte key from PBKDF2-HMAC-SHA256 with 100000 iterations. The hash
itself is not part of this tree; it is abstracted by an executable
byte-mixing fold. What the claims rely on is determinism in
`(password, salt)` and the 32-byte output of key material bytes. -/
def deriveKey (password salt : List Nat) : List Nat :=
  (List.range 32).map fun i =>
    ((password ++ salt).foldl (fun a b => (a * 131 + b + 1) % 256) i) % 256

/-- Modelled from the spec: PKCS#7 padding to the 16-byte cipher block
size; always adds between 1 and 16 bytes, each equal to the pad count. -/
def pkcs7Pad (data : List Nat) : List Nat :=
  let n := 16 - data.length % 16
  data ++ List.replicate n n

/-- Modelled from the spec: PKCS#7 unpadding; returns `none` (the
`AuthenticationError` signal) when the padding bytes are invalid. -/
def pkcs7Unpad (data : List Nat) : Option (List Nat) :=
  match data.getLast? with
  | none => none
  | some n =>
      if n = 0 ∨ 16 < n ∨ data.length < n then none
      else if (data.drop (data.length - n)).all (fun b => b = n) then
        some (data.take (data.length - n))
      else none

/-- Modelled from the spec: one application of the block cipher on a
16-byte block under the 32-byte derived key. AES-256 itself is not part
of this tree; it is abstracted by an executable keyed byte-wise
permutation of the block space (addition of key material modulo 256). -/
def blockEnc (key block : List Nat) : List Nat :=
  List.zipWith (fun x k => (x + k) % 256) block (key.take 16)

/-- Inverse of `blockEnc` under the same key. -/
def blockDec (key block : List Nat) : List Nat :=
  List.zipWith (fun x k => (x + 256 - k % 256) % 256) block (key.take 16)

/-- Byte-wise exclusive or of two equal-length blocks (the CBC chain). -/
def xorB (a b : List Nat) : List Nat :=
  List.zipWith (fun x y => x ^^^ y) a b

/-- Modelled from the spec: CBC-mode encryption of a list of 16-byte
plaintext blocks; each block is chained with the previous ciphertext
block (initially the IV) before the block cipher is applied. -/
def cbcEnc (key prev : List Nat) : List (List Nat) → List (List Nat)
  | [] => []
  | b :: bs =>
      let c := blockEnc key (xorB prev b)
      c :: cbcEnc key c bs

/-- Modelled from the spec: CBC-mode decryption, the inverse chain. -/
def cbcDec (key prev : List Nat) : List (List Nat) → List (List Nat)
  | [] => []
  | c :: cs => xorB prev (blockDec key c) :: cbcDec key c cs

/-- Structural worker for `chunk16`: the fuel argument bounds the
number of chunks and is always instantiated with the list length. -/
def chunk16Aux : Nat → List Nat → List (List Nat)
  | _, [] => []
  | 0, _ :: _ => []
  | n + 1, x :: xs => ((x :: xs).take 16) :: chunk16Aux n ((x :: xs).drop 16)

/-- Split a byte list into 16-byte chunks (the final chunk may be short
when the length is not a multiple of 16). -/
def chunk16 (l : List Nat) : List (List Nat) := chunk16Aux l.length l

/-- Modelled from the spec: `encrypt(plaintext, password)` with the salt
and IV passed explicitly (they are drawn from the secure random source
by the caller of the model); pads with PKCS#7 and encrypts in CBC mode
under the derived key. Returns the ciphertext bytes. -/
def encryptBytes (plaintext password salt iv : List Nat) : List Nat :=
  (cbcEnc (deriveKey password salt) iv (chunk16 (pkcs7Pad plaintext))).flatten

/-- Modelled from the spec: `decrypt(salt, iv, ciphertext, password)`;
derives the key, decrypts in CBC mode and strips the PKCS#7 padding,
returning `none` (the `AuthenticationError` signal, reported as wrong
password or corrupted data) when the padding is invalid or the
ciphertext is not a positive multiple of the block size. -/
def decryptBytes (salt iv ciphertext password : List Nat) : Option (List Nat) :=
  if ciphertext.length = 0 ∨ ciphertext.length % 16 ≠ 0 then none
  else pkcs7Unpad (cbcDec (deriveKey password salt) iv (chunk16 ciphertext)).flatten

/-! ## Frame codec (spec section 4.3) -/

/-- Modelled from the spec: the marker bytes of a family, ASCII `PV` or
`JPG`. -/
def markerBytes : Family → List Nat
  | .pv => [80, 86]
  | .jpg => [74, 80, 71]

/-- Modelled from the spec: the full ASCII frame tag
`"<FAMILY>:1.0:<E|P>|"`, the flag byte being `E` (69) when encrypted and
`P` (80) when plain. -/
def tagBytes (fam : Family) (encrypted : Bool) : List Nat :=
  markerBytes fam ++ [58, 49, 46, 48, 58] ++
    [if encrypted then 69 else 80] ++ [124]

/-- Length of the frame tag for a family (identical for the encrypted
and plain variants). -/
def tagLen (fam : Family) : Nat := (tagBytes fam true).length

/-- Modelled from the spec: the reserved end-of-data terminator byte
sequence (the spec fixes its existence and role but not its bytes; the
model uses the five ASCII bytes of `$STOP`). -/
def terminatorBytes : List Nat := [36, 83, 84, 79, 80]

/-- Modelled from the spec: `frame(payload, encrypted, family)` prepends
the literal tag and appends the terminator sequence. -/
def frameBytes (fam : Family) (encrypted : Bool) (inner : List Nat) : List Nat :=
  tagBytes fam encrypted ++ inner ++ terminatorBytes

/-- Scan a byte stream for the first occurrence of the terminator
sequence, returning the bytes before it, or `none` when the stream is
exhausted first. -/
def scanTerm : List Nat → Option (List Nat)
  | [] => none
  | b :: rest =>
      if (b :: rest).take terminatorBytes.length = terminatorBytes then some []
      else (scanTerm rest).map (fun pre => b :: pre)

/-- Modelled from the spec: `unframe(bytes, family)` reads the
fixed-length tag first, failing with `UnknownFormatError` when the
marker or version does not match, then scans to the terminator, failing
with `TerminatorNotFoundError` when the stream is exhausted first.
Returns the encryption flag and the inner bytes. -/
def unframe (fam : Family) (bytes : List Nat) : Except StegError (Bool × List Nat) :=
  if bytes.take (tagLen fam) = tagBytes fam true then
    match scanTerm (bytes.drop (tagLen fam)) with
    | some inner => .ok (true, inner)
    | none => .error .terminatorNotFound
  else if bytes.take (tagLen fam) = tagBytes fam false then
    match scanTerm (bytes.drop (tagLen fam)) with
    | some inner => .ok (false, inner)
    | none => .error .terminatorNotFound
  else .error .unknownFormat

/-! ## Carrier adapters (spec section 4.4) -/

/-- Write a bit into the least significant bit of a pixel sample,
leaving all other bits untouched. -/
def setLSB (v b : Nat) : Nat := v - v % 2 + b

/-- Modelled from the spec: write successive bits into the least
significant bits of a list of unit values; returns the new values and
the bits left over once the values are exhausted. -/
def writeList : List Nat → List Nat → List Nat × List Nat
  | [], bits => ([], bits)
  | v :: vs, [] => (v :: vs, [])
  | v :: vs, b :: bs =>
      let r := writeList vs bs
      (setLSB v b :: r.1, r.2)

/-- Modelled from the spec: the embeddable units of one pixel are its
first three channel samples (R, G, B in channel order), the alpha
channel being skipped; this reads their least significant bits. -/
def readPixels : List (List Nat) → List Nat
  | [] => []
  | p :: ps => (p.take 3).map (fun v => v % 2) ++ readPixels ps

/-- Modelled from the spec: write bits into the embeddable units of a
pixel grid, pixels in row-major raster order, channels R, G, B with the
alpha channel untouched. Returns the new grid and the leftover bits. -/
def writePixels : List (List Nat) → List Nat → List (List Nat) × List Nat
  | [], bits => ([], bits)
  | p :: ps, bits =>
      let f := writeList (p.take 3) bits
      let r := writePixels ps f.2
      ((f.1 ++ p.drop 3) :: r.1, r.2)

/-- Modelled from the spec: a quantized AC coefficient is an embeddable
unit when it is non-zero and an LSB write can neither push it out of the
valid quantized range nor collapse it to zero (zero coefficients must
stay zero, so magnitude-one values are skipped as well): its magnitude
must lie in `[2, 1023]`. -/
def embeddableCoeff (v : Int) : Bool :=
  decide (2 ≤ v.natAbs) && decide (v.natAbs ≤ 1023)

/-- The payload bit carried by a coefficient: the least significant bit
of its magnitude. -/
def coeffLSB (v : Int) : Nat := v.natAbs % 2

/-- Write a payload bit into the least significant bit of a
coefficient's magnitude, preserving its sign. -/
def setCoeffLSB (v : Int) (b : Nat) : Int :=
  (if v < 0 then -1 else 1) * ((v.natAbs / 2 * 2 + b : Nat) : Int)

/-- Read the payload bits of the embeddable coefficients of one block
tail (the coefficients after the DC), in block-scan order. -/
def readCoeffList : List Int → List Nat
  | [] => []
  | v :: vs =>
      if embeddableCoeff v then coeffLSB v :: readCoeffList vs
      else readCoeffList vs

/-- Write successive bits into the embeddable coefficients of a block
tail, leaving non-embeddable coefficients untouched; returns the new
coefficients and the leftover bits. -/
def writeCoeffList : List Int → List Nat → List Int × List Nat
  | [], bits => ([], bits)
  | v :: vs, bits =>
      if embeddableCoeff v then
        match bits with
        | [] => (v :: vs, [])
        | b :: bs =>
            let r := writeCoeffList vs bs
            (setCoeffLSB v b :: r.1, r.2)
      else
        let r := writeCoeffList vs bits
        (v :: r.1, r.2)

/-- Modelled from the spec: read the payload bits of a coefficient
carrier, blocks in raster order, coefficients in block-scan order, the
DC coefficient (index 0 of each block) never being a unit. -/
def readBlocks : List (List Int) → List Nat
  | [] => []
  | bl :: bls => readCoeffList (bl.drop 1) ++ readBlocks bls

/-- Modelled from the spec: write bits into the embeddable coefficients
of a coefficient carrier, never touching DC coefficients or
non-embeddable values. Returns the new blocks and the leftover bits. -/
def writeBlocks : List (List Int) → List Nat → List (List Int) × List Nat
  | [], bits => ([], bits)
  | bl :: bls, bits =>
      match bl with
      | [] =>
          let r := writeBlocks bls bits
          ([] :: r.1, r.2)
      | dc :: rest =>
          let f := writeCoeffList rest bits
          let r := writeBlocks bls f.2
          ((dc :: f.1) :: r.1, r.2)

/-- The ordered least-significant-bit stream of all embeddable units of
a carrier (the enumeration used by both encode and decode). -/
def readBits : Carrier → List Nat
  | .pixel _ _ _ ps => readPixels ps
  | .coeff bls => readBlocks bls

/-- Write a bit sequence into the embeddable units of a carrier in
enumeration order, leaving every other datum untouched. -/
def writeBits : Carrier → List Nat → Carrier
  | .pixel w h c ps, bits => .pixel w h c (writePixels ps bits).1
  | .coeff bls, bits => .coeff (writeBlocks bls bits).1

/-- Modelled from the spec: `capacity()`, the number of embeddable
units (one bit each) of a carrier. -/
def capacityBits (c : Carrier) : Nat := (readBits c).length

/-! ## Capacity planner and embedding pipeline (spec sections 4.5, 4.6) -/

/-- Modelled from the spec: `overhead_bytes` = tag length + terminator
length + 32 bytes of salt, IV and padding overhead when encryption is
requested. -/
def overheadBytes (fam : Family) (encrypted : Bool) : Nat :=
  tagLen fam + terminatorBytes.length + (if encrypted then 32 else 0)

/-- Modelled from the spec: `plan(carrier, overhead_bytes)`, the usable
payload bytes `floor(capacity / 8) - overhead_bytes`. -/
def usableBytes (c : Carrier) (encrypted : Bool) : Nat :=
  capacityBits c / 8 - overheadBytes c.family encrypted

/-- Modelled from the spec: the inner bytes of the frame; the raw
message when no password is given, otherwise
`salt(16) ++ iv(16) ++ ciphertext`. -/
def innerBytes (message password salt iv : List Nat) : List Nat :=
  if password.isEmpty then message
  else salt ++ iv ++ encryptBytes message password salt iv

/-- Modelled from the spec: the encode pipeline (section 4.6): validate
the payload is non-empty, check capacity before any mutation, optionally
encrypt, frame, pack to bits, and write each bit into successive carrier
units in enumeration order, failing terminally (with no partial output)
when the packed frame would exhaust the carrier's units. The salt and IV
are drawn from the secure random source by the caller of the model. -/
def encode (c : Carrier) (message password salt iv : List Nat) :
    Except StegError Carrier :=
  if message.isEmpty then .error .emptyPayload
  else if usableBytes c (!password.isEmpty) < message.length then
    .error .insufficientCapacity
  else if capacityBits c <
      (bitsOf (frameBytes c.family (!password.isEmpty)
        (innerBytes message password salt iv))).length then
    .error .insufficientCapacity
  else .ok (writeBits c (bitsOf (frameBytes c.family (!password.isEmpty)
    (innerBytes message password salt iv))))

/-- Modelled from the spec: decrypt the inner bytes of an encrypted
frame: the leading 16 bytes are the salt, the next 16 the IV, the rest
the ciphertext. -/
def decryptInner (inner password : List Nat) : Option (List Nat) :=
  if inner.length < 32 then none
  else decryptBytes (inner.take 16) ((inner.drop 16).take 16)
    (inner.drop 32) password

/-- Modelled from the spec: the decode pipeline (section 4.6): read the
carrier's unit bits in the same enumeration order encode used, form
bytes, unframe, and, when the frame says encrypted, require a password
(failing with `PasswordRequiredError` when it is absent) and decrypt
(failing with `AuthenticationError` when the padding is invalid). -/
def decode (c : Carrier) (password : List Nat) : Except StegError (List Nat) :=
  match unframe c.family (bytesOfAux (readBits c)) with
  | .error e => .error e
  | .ok (encrypted, inner) =>
      if encrypted then
        if password.isEmpty then .error .passwordRequired
        else
          match decryptInner inner password with
          | some m => .ok m
          | none => .error .authenticationError
      else .ok inner

/-! ## PixelVault frontend page (embedded from the page source) -/

/-- The React state of the PixelVault page that the encode and decode
handlers consult: the selected file, the message and password inputs,
and the loading, error and result fields they update. -/
structure PVState where
  file : Option String
  message : String
  password : String
  isLoading : Bool
  error : Option String
  resultMessage : Option String
  deriving DecidableEq, Repr

/-- The multipart form fields built by `handleEncode`: the image and the
message always, and a `password` field exactly when the password string
is truthy (non-empty), mirroring `if (password) formData.append(...)`. -/
def encodeFormFields (file message password : String) : List (String × String) :=
  [("image", file), ("message", message)] ++
    (if password = "" then [] else [("password", password)])

/-- The multipart form fields built by `handleDecode`: the image always,
and a `password` field exactly when the password string is non-empty. -/
def decodeFormFields (file password : String) : List (String × String) :=
  [("image", file)] ++
    (if password = "" then [] else [("password", password)])

/-- The synchronous prefix of `handleEncode`: when no file is selected
or the message is empty it returns at once, before touching the loading
or error state and before any request is built; otherwise it sets the
loading flag, clears the error and builds the encode request form.
Returns the updated state and the request form, when one is issued. -/
def handleEncodeStart (s : PVState) : PVState × Option (List (String × String)) :=
  match s.file with
  | none => (s, none)
  | some f =>
      if s.message = "" then (s, none)
      else ({ s with isLoading := true, error := none },
        some (encodeFormFields f s.message s.password))

/-- The synchronous prefix of `handleDecode`: returns at once when no
file is selected; otherwise sets the loading flag, clears the error and
previous result, and builds the decode request form. -/
def handleDecodeStart (s : PVState) : PVState × Option (List (String × String)) :=
  match s.file with
  | none => (s, none)
  | some f =>
      ({ s with isLoading := true, error := none, resultMessage := none },
        some (decodeFormFields f s.password))

/-- The disabled guard of the page's action button on the encode tab:
`disabled={!file || (activeTab === "encode" && !message)}`. -/
def encodeButtonDisabled (s : PVState) : Bool :=
  s.file.isNone || s.message = ""

/-! ## Concrete instances used by witnesses and counterexamples -/

/-- A 16-byte zero salt (a legal draw of the random source). -/
def saltZero : List Nat := List.replicate 16 0

/-- A 16-byte zero IV (a legal draw of the random source). -/
def ivZero : List Nat := List.replicate 16 0

/-- A distinct concrete 16-byte salt. -/
def saltOne : List Nat := [1, 2, 3, 4, 5, 6, 7, 8, 9, 10, 11, 12, 13, 14, 15, 16]

/-- A distinct concrete 16-byte IV. -/
def ivOne : List Nat := [17, 18, 19, 20, 21, 22, 23, 24, 25, 26, 27, 28, 29, 30, 31, 32]

/-- A 51-pixel RGB carrier: exactly enough capacity for a 5-byte plain
message. -/
def carrier51 : Carrier := .pixel 51 1 3 (List.replicate 51 [9, 9, 9])

/-- A 128-pixel RGB carrier: 384 bits of capacity, 2 usable bytes under
encrypted overhead accounting. -/
def carrier128 : Carrier := .pixel 128 1 3 (List.replicate 128 [0, 0, 0])

/-- A 166-pixel RGB carrier: enough capacity for an encrypted 15-byte
message. -/
def carrier166 : Carrier := .pixel 166 1 3 (List.replicate 166 [0, 0, 0])

/-- A 40-pixel RGB carrier: 120 bits, enough for a one-byte plain
payload framed. -/
def carrier40 : Carrier := .pixel 40 1 3 (List.replicate 40 [9, 9, 9])

/-- The spec's concrete scenario carrier: 100 x 100 pixels, 24-bit
(three channels). -/
def carrier100 : Carrier := .pixel 100 100 3 (List.replicate 10000 [200, 200, 200])

/-- Three 8x8 blocks of quantized coefficients, DC 50, every AC
coefficient 5 (189 embeddable units). -/
def blocksJpeg : List (List Int) :=
  List.replicate 3 ((50 : Int) :: List.replicate 63 (5 : Int))

/-- A coefficient carrier built from `blocksJpeg`. -/
def carrierJpeg : Carrier := .coeff blocksJpeg

/-- The 15-byte message of the wrong-password counterexample. -/
def msgA15 : List Nat := List.replicate 15 65

/-- The encode password of the wrong-password counterexample. -/
def pwOne : List Nat := [0]

/-- A second password, different from `pwOne`, engineered so that the
abstracted key derivation collides with `pwOne` on the final key byte:
decryption then leaves the final PKCS#7 padding byte intact while
garbling the rest of the block. -/
def pwTwo : List Nat := [0, 163]

/-- The bytes of the 5-character message `Hello`. -/
def helloBytes : List Nat := [72, 101, 108, 108, 111]

/-- The carrier produced by encoding `msgA15` into `carrier166` under
password `pwOne` (salt and IV zero): a concrete encrypted carrier. -/
def carrierEncA : Carrier :=
  writeBits carrier166
    (bitsOf (frameBytes Family.pv true (innerBytes msgA15 pwOne saltZero ivZero)))

/-- The bytes of the password `Pass123`. -/
def pass123 : List Nat := [80, 97, 115, 115, 49, 50, 51]

/-- No terminator occurrence starts strictly inside the inner bytes of a
frame: at every position before the appended terminator, the next bytes
differ from the terminator sequence. This is the condition under which
the terminator scan of decode recovers exactly the framed payload. -/
def noEarlyTerm (inner : List Nat) : Prop :=
  ∀ p, p < inner.length →
    ((inner ++ terminatorBytes).drop p).take terminatorBytes.length ≠ terminatorBytes

instance (inner : List Nat) : Decidable (noEarlyTerm inner) := by
  unfold noEarlyTerm; infer_instance

/-! ## Bit packer lemmas -/

theorem bitsOf_length (l : List Nat) : (bitsOf l).length = 8 * l.length := by
  induction l with
  | nil => rfl
  | cons b bs ih => simp [bitsOf, byteBits, ih]; omega

theorem bitsOf_le_one (l : List Nat) : ∀ x ∈ bitsOf l, x ≤ 1 := by
  induction l with
  | nil => intro x hx; cases hx
  | cons b bs ih =>
      intro x hx
      simp only [bitsOf, List.mem_append] at hx
      rcases hx with hx | hx
      · simp [byteBits] at hx
        rcases hx with h | h | h | h | h | h | h | h <;> omega
      · exact ih x hx

theorem bytesOfAux_bitsOf (l r : List Nat) (h : ∀ b ∈ l, b < 256) :
    bytesOfAux (bitsOf l ++ r) = l ++ bytesOfAux r := by
  induction l with
  | nil => rfl
  | cons b bs ih =>
      have hb : b < 256 := h b (by simp)
      have hbs : ∀ x ∈ bs, x < 256 := fun x hx => h x (by simp [hx])
      simp only [bitsOf, byteBits, List.cons_append, List.append_assoc]
      show bytesOfAux (_ :: _ :: _ :: _ :: _ :: _ :: _ :: _ :: (bitsOf bs ++ r)) = _
      rw [bytesOfAux]
      rw [ih hbs]
      congr 1
      omega

/-! ## Pixel adapter lemmas -/

theorem setLSB_mod_two (v b : Nat) (hb : b ≤ 1) : setLSB v b % 2 = b := by
  unfold setLSB
  omega

theorem writeList_length (vs bits : List Nat) :
    (writeList vs bits).1.length = vs.length := by
  induction vs generalizing bits with
  | nil => rfl
  | cons v vs ih =>
      cases bits with
      | nil => rfl
      | cons b bs => simp [writeList, ih]

theorem writeList_spec (vs bits : List Nat) (hb : ∀ x ∈ bits, x ≤ 1) :
    (writeList vs bits).1.map (fun v => v % 2) =
      bits.take vs.length ++ (vs.map (fun v => v % 2)).drop bits.length ∧
    (writeList vs bits).2 = bits.drop vs.length := by
  induction vs generalizing bits with
  | nil => simp [writeList]
  | cons v vs ih =>
      cases bits with
      | nil => simp [writeList]
      | cons b bs =>
          have hb0 : b ≤ 1 := hb b (by simp)
          have hbs : ∀ x ∈ bs, x ≤ 1 := fun x hx => hb x (by simp [hx])
          obtain ⟨ih1, ih2⟩ := ih bs hbs
          constructor
          · simp only [writeList, List.map_cons, List.length_cons,
              List.take_succ_cons, List.drop_succ_cons, List.cons_append]
            rw [setLSB_mod_two v b hb0, ih1]
          · simp only [writeList, List.length_cons, List.drop_succ_cons]
            exact ih2

theorem writePixels_spec (ps : List (List Nat)) (bits : List Nat)
    (hb : ∀ x ∈ bits, x ≤ 1) :
    readPixels (writePixels ps bits).1 =
      bits.take (readPixels ps).length ++ (readPixels ps).drop bits.length ∧
    (writePixels ps bits).2 = bits.drop (readPixels ps).length := by
  induction ps generalizing bits with
  | nil => simp [writePixels, readPixels]
  | cons p ps ih =>
      obtain ⟨w1, w2⟩ := writeList_spec (p.take 3) bits hb
      have hrest : ∀ x ∈ (writeList (p.take 3) bits).2, x ≤ 1 := by
        rw [w2]; intro x hx; exact hb x (List.mem_of_mem_drop hx)
      obtain ⟨ih1, ih2⟩ := ih (writeList (p.take 3) bits).2 hrest
      have hfl : (writeList (p.take 3) bits).1.length = (p.take 3).length :=
        writeList_length _ _
    -- the written front channels followed by the untouched tail
    -- restore exactly the written front on a fresh take
      have hfront : ((writeList (p.take 3) bits).1 ++ p.drop 3).take 3 =
          (writeList (p.take 3) bits).1 := by
        rcases le_or_lt 3 p.length with h3 | h3
        · have hl3 : (writeList (p.take 3) bits).1.length = 3 := by
            rw [hfl, List.length_take]; omega
          exact List.take_left' hl3
        · have hd : p.drop 3 = [] := List.drop_eq_nil_of_le (by omega)
          have hle : (writeList (p.take 3) bits).1.length ≤ 3 := by
            rw [hfl, List.length_take]; omega
          rw [hd, List.append_nil, List.take_of_length_le hle]
      constructor
      · show readPixels (((writeList (p.take 3) bits).1 ++ p.drop 3) ::
            (writePixels ps (writeList (p.take 3) bits).2).1) = _
        rw [readPixels, hfront, w1, ih1, w2]
        rw [readPixels]
        set A := (p.take 3).map (fun v => v % 2) with hA
        have hAl : A.length = (p.take 3).length := by simp [hA]
        set R := readPixels ps with hR
        rw [List.length_append, hAl]
        rcases le_or_lt (p.take 3).length bits.length with hc | hc
        · have h1 : A.drop bits.length = [] :=
            List.drop_eq_nil_of_le (by omega)
          have e1 : List.drop bits.length (A ++ R) =
              List.drop (bits.length - (p.take 3).length) R := by
            rw [List.drop_append_eq_append_drop, h1, List.nil_append, hAl]
          have e2 : (List.drop (p.take 3).length bits).length =
              bits.length - (p.take 3).length := by simp
          rw [h1, List.append_nil, e1, List.take_add, e2, List.append_assoc]
        · have h2 : bits.drop (p.take 3).length = [] :=
            List.drop_eq_nil_of_le (by omega)
          have h3 : bits.take (p.take 3).length = bits :=
            List.take_of_length_le (by omega)
          have h4 : bits.take ((p.take 3).length + R.length) = bits :=
            List.take_of_length_le (by omega)
          have e3 : List.drop bits.length (A ++ R) =
              A.drop bits.length ++ R := by
            rw [List.drop_append_eq_append_drop, hAl]
            have h5 : bits.length - (p.take 3).length = 0 := by omega
            rw [h5, List.drop_zero]
          rw [h2, h3, h4, e3]
          simp [List.append_assoc]
      · show (writePixels ps (writeList (p.take 3) bits).2).2 = _
        rw [ih2, w2, List.drop_drop, readPixels, List.length_append]
        congr 1
        simp

/-! ## Coefficient adapter lemmas -/

theorem natAbs_setCoeffLSB (v : Int) (b : Nat) :
    (setCoeffLSB v b).natAbs = v.natAbs / 2 * 2 + b := by
  unfold setCoeffLSB
  by_cases h : v < 0
  · rw [if_pos h, neg_one_mul, Int.natAbs_neg, Int.natAbs_ofNat]
  · rw [if_neg h, one_mul, Int.natAbs_ofNat]

theorem coeffLSB_setCoeffLSB (v : Int) (b : Nat) (hb : b ≤ 1) :
    coeffLSB (setCoeffLSB v b) = b := by
  unfold coeffLSB
  rw [natAbs_setCoeffLSB]
  omega

theorem embeddable_setCoeffLSB (v : Int) (b : Nat) (hb : b ≤ 1)
    (hv : embeddableCoeff v = true) : embeddableCoeff (setCoeffLSB v b) = true := by
  unfold embeddableCoeff at hv ⊢
  rw [natAbs_setCoeffLSB]
  simp only [Bool.and_eq_true, decide_eq_true_eq] at hv ⊢
  omega

theorem writeCoeffList_nil (vs : List Int) : writeCoeffList vs [] = (vs, []) := by
  induction vs with
  | nil => rfl
  | cons v vs ih =>
      unfold writeCoeffList
      by_cases h : embeddableCoeff v
      · rw [if_pos h]
      · rw [if_neg h, ih]

theorem writeCoeffList_spec (vs : List Int) (bits : List Nat)
    (hb : ∀ x ∈ bits, x ≤ 1) :
    readCoeffList (writeCoeffList vs bits).1 =
      bits.take (readCoeffList vs).length ++ (readCoeffList vs).drop bits.length ∧
    (writeCoeffList vs bits).2 = bits.drop (readCoeffList vs).length := by
  induction vs generalizing bits with
  | nil => simp [writeCoeffList, readCoeffList]
  | cons v vs ih =>
      by_cases hv : embeddableCoeff v = true
      · cases bits with
        | nil =>
            rw [writeCoeffList_nil]
            simp [readCoeffList]
        | cons b bs =>
            have hb0 : b ≤ 1 := hb b (by simp)
            have hbs : ∀ x ∈ bs, x ≤ 1 := fun x hx => hb x (by simp [hx])
            obtain ⟨ih1, ih2⟩ := ih bs hbs
            have hw : writeCoeffList (v :: vs) (b :: bs) =
                (setCoeffLSB v b :: (writeCoeffList vs bs).1,
                  (writeCoeffList vs bs).2) := by
              simp [writeCoeffList, hv]
            rw [hw]
            constructor
            · rw [readCoeffList]
              rw [if_pos (embeddable_setCoeffLSB v b hb0 hv),
                coeffLSB_setCoeffLSB v b hb0, ih1]
              rw [readCoeffList, if_pos hv]
              simp
            · rw [ih2, readCoeffList, if_pos hv]
              simp
      · have hw : writeCoeffList (v :: vs) bits =
            (v :: (writeCoeffList vs bits).1, (writeCoeffList vs bits).2) := by
          simp [writeCoeffList, hv]
        rw [hw]
        constructor
        · rw [readCoeffList, if_neg hv, (ih bits hb).1, readCoeffList, if_neg hv]
        · rw [(ih bits hb).2, readCoeffList, if_neg hv]

theorem writeBlocks_spec (bls : List (List Int)) (bits : List Nat)
    (hb : ∀ x ∈ bits, x ≤ 1) :
    readBlocks (writeBlocks bls bits).1 =
      bits.take (readBlocks bls).length ++ (readBlocks bls).drop bits.length ∧
    (writeBlocks bls bits).2 = bits.drop (readBlocks bls).length := by
  induction bls generalizing bits with
  | nil => simp [writeBlocks, readBlocks]
  | cons bl bls ih =>
      cases bl with
      | nil =>
          obtain ⟨ih1, ih2⟩ := ih bits hb
          constructor
          · show readBlocks ([] :: (writeBlocks bls bits).1) = _
            rw [readBlocks, ih1, readBlocks]
            simp [readCoeffList]
          · show (writeBlocks bls bits).2 = _
            rw [ih2, readBlocks]
            simp [readCoeffList]
      | cons dc rest =>
          obtain ⟨w1, w2⟩ := writeCoeffList_spec rest bits hb
          have hrest : ∀ x ∈ (writeCoeffList rest bits).2, x ≤ 1 := by
            rw [w2]; intro x hx; exact hb x (List.mem_of_mem_drop hx)
          obtain ⟨ih1, ih2⟩ := ih (writeCoeffList rest bits).2 hrest
          have hdrop : (dc :: (writeCoeffList rest bits).1).drop 1 =
              (writeCoeffList rest bits).1 := rfl
          constructor
          · show readBlocks ((dc :: (writeCoeffList rest bits).1) ::
                (writeBlocks bls (writeCoeffList rest bits).2).1) = _
            rw [readBlocks, hdrop, w1, ih1, w2]
            rw [readBlocks]
            have hrd : (dc :: rest).drop 1 = rest := rfl
            rw [hrd]
            set A := readCoeffList rest with hA
            set R := readBlocks bls with hR
            rw [List.length_append]
            rcases le_or_lt A.length bits.length with hc | hc
            · have h1 : A.drop bits.length = [] :=
                List.drop_eq_nil_of_le (by omega)
              have e1 : List.drop bits.length (A ++ R) =
                  List.drop (bits.length - A.length) R := by
                rw [List.drop_append_eq_append_drop, h1, List.nil_append]
              have e2 : (List.drop A.length bits).length =
                  bits.length - A.length := by simp
              rw [h1, List.append_nil, e1, List.take_add, e2, List.append_assoc]
            · have h2 : bits.drop A.length = [] :=
                List.drop_eq_nil_of_le (by omega)
              have h3 : bits.take A.length = bits :=
                List.take_of_length_le (by omega)
              have h4 : bits.take (A.length + R.length) = bits :=
                List.take_of_length_le (by omega)
              have e3 : List.drop bits.length (A ++ R) =
                  A.drop bits.length ++ R := by
                rw [List.drop_append_eq_append_drop]
                have h5 : bits.length - A.length = 0 := by omega
                rw [h5, List.drop_zero]
              rw [h2, h3, h4, e3]
              simp [List.append_assoc]
          · show (writeBlocks bls (writeCoeffList rest bits).2).2 = _
            rw [ih2, w2, List.drop_drop, readBlocks]
            have hrd : (dc :: rest).drop 1 = rest := rfl
            rw [hrd, List.length_append]

/-! ## Unified adapter lemmas -/

theorem readBits_writeBits (c : Carrier) (bits : List Nat)
    (hb : ∀ x ∈ bits, x ≤ 1) :
    readBits (writeBits c bits) =
      bits.take (capacityBits c) ++ (readBits c).drop bits.length := by
  cases c with
  | pixel w h ch ps => exact (writePixels_spec ps bits hb).1
  | coeff bls => exact (writeBlocks_spec bls bits hb).1

theorem family_writeBits (c : Carrier) (bits : List Nat) :
    (writeBits c bits).family = c.family := by
  cases c <;> rfl

/-! ## Cryptographic layer lemmas -/

theorem deriveKey_length (p s : List Nat) : (deriveKey p s).length = 32 := by
  simp [deriveKey]

theorem deriveKey_lt (p s : List Nat) : ∀ x ∈ deriveKey p s, x < 256 := by
  intro x hx
  simp only [deriveKey, List.mem_map, List.mem_range] at hx
  obtain ⟨i, _, he⟩ := hx
  omega

theorem mem_zipWith_lt (f : Nat → Nat → Nat) (hf : ∀ a b, f a b < 256) :
    ∀ (l k : List Nat), ∀ x ∈ List.zipWith f l k, x < 256 := by
  intro l
  induction l with
  | nil => intro k x hx; simp at hx
  | cons a l ih =>
      intro k x hx
      cases k with
      | nil => simp at hx
      | cons b k =>
          simp only [List.zipWith_cons_cons, List.mem_cons] at hx
          rcases hx with h | h
          · exact h ▸ hf a b
          · exact ih k x h

theorem zip_dec_enc (l : List Nat) :
    ∀ (k : List Nat), (∀ x ∈ l, x < 256) → (∀ y ∈ k, y < 256) →
      l.length ≤ k.length →
      List.zipWith (fun x c => (x + 256 - c % 256) % 256)
        (List.zipWith (fun x c => (x + c) % 256) l k) k = l := by
  induction l with
  | nil => intro k _ _ _; simp
  | cons a l ih =>
      intro k hl hk hlen
      cases k with
      | nil => simp at hlen
      | cons b k =>
          simp only [List.zipWith_cons_cons]
          have ha : a < 256 := hl a (by simp)
          have hb : b < 256 := hk b (by simp)
          congr 1
          · omega
          · exact ih k (fun x hx => hl x (by simp [hx]))
              (fun y hy => hk y (by simp [hy])) (by simp at hlen; omega)

theorem blockDec_blockEnc (key blk : List Nat) (hkey : ∀ y ∈ key, y < 256)
    (hklen : 16 ≤ key.length) (hblk : ∀ x ∈ blk, x < 256)
    (hlen : blk.length = 16) : blockDec key (blockEnc key blk) = blk := by
  unfold blockDec blockEnc
  apply zip_dec_enc blk (key.take 16) hblk
  · intro y hy
    exact hkey y (List.take_subset 16 key hy)
  · rw [hlen, List.length_take]
    omega

theorem blockEnc_lt (key blk : List Nat) : ∀ x ∈ blockEnc key blk, x < 256 := by
  unfold blockEnc
  exact mem_zipWith_lt _ (fun a b => Nat.mod_lt _ (by norm_num)) blk (key.take 16)

theorem blockEnc_length (key blk : List Nat) (hklen : 16 ≤ key.length)
    (hlen : blk.length = 16) : (blockEnc key blk).length = 16 := by
  unfold blockEnc
  rw [List.length_zipWith, hlen, List.length_take]
  omega

theorem xorB_lt (a : List Nat) :
    ∀ (b : List Nat), (∀ x ∈ a, x < 256) → (∀ y ∈ b, y < 256) →
      ∀ z ∈ xorB a b, z < 256 := by
  induction a with
  | nil => intro b _ _ z hz; simp [xorB] at hz
  | cons x a ih =>
      intro b ha hb z hz
      cases b with
      | nil => simp [xorB] at hz
      | cons y b =>
          simp only [xorB, List.zipWith_cons_cons, List.mem_cons] at hz
          rcases hz with h | h
          · have hx : x < 2 ^ 8 := by have := ha x (by simp); omega
            have hy : y < 2 ^ 8 := by have := hb y (by simp); omega
            have := Nat.xor_lt_two_pow hx hy
            omega
          · exact ih b (fun u hu => ha u (by simp [hu]))
              (fun u hu => hb u (by simp [hu])) z h

theorem xorB_length (a b : List Nat) : (xorB a b).length = min a.length b.length := by
  unfold xorB
  rw [List.length_zipWith]

theorem xorB_xorB (a : List Nat) :
    ∀ (b : List Nat), b.length ≤ a.length → xorB a (xorB a b) = b := by
  induction a with
  | nil =>
      intro b hb
      have hb0 : b = [] := by
        cases b with
        | nil => rfl
        | cons y ys => simp at hb
      simp [hb0, xorB]
  | cons x a ih =>
      intro b hb
      cases b with
      | nil => simp [xorB]
      | cons y b =>
          simp only [xorB, List.zipWith_cons_cons]
          congr 1
          · rw [← Nat.xor_assoc, Nat.xor_self, Nat.zero_xor]
          · exact ih b (by simp only [List.length_cons] at hb; omega)

theorem cbcEnc_count (key : List Nat) :
    ∀ (bls : List (List Nat)) (prev : List Nat),
      (cbcEnc key prev bls).length = bls.length := by
  intro bls
  induction bls with
  | nil => intro prev; rfl
  | cons b bs ih => intro prev; simp [cbcEnc, ih]

theorem cbcEnc_block_length (key : List Nat) (hklen : 16 ≤ key.length) :
    ∀ (bls : List (List Nat)) (prev : List Nat),
      (∀ b ∈ bls, b.length = 16) → prev.length = 16 →
      ∀ cb ∈ cbcEnc key prev bls, cb.length = 16 := by
  intro bls
  induction bls with
  | nil => intro prev _ _ cb hcb; simp [cbcEnc] at hcb
  | cons b bs ih =>
      intro prev hbls hprev cb hcb
      have hb16 : b.length = 16 := hbls b (by simp)
      have hxl : (xorB prev b).length = 16 := by
        rw [xorB_length, hprev, hb16]; simp
      have hcl : (blockEnc key (xorB prev b)).length = 16 :=
        blockEnc_length key _ hklen hxl
      simp only [cbcEnc, List.mem_cons] at hcb
      rcases hcb with h | h
      · rw [h]; exact hcl
      · exact ih (blockEnc key (xorB prev b))
          (fun u hu => hbls u (by simp [hu])) hcl cb h

theorem cbcEnc_block_lt (key : List Nat) :
    ∀ (bls : List (List Nat)) (prev : List Nat),
      ∀ cb ∈ cbcEnc key prev bls, ∀ x ∈ cb, x < 256 := by
  intro bls
  induction bls with
  | nil => intro prev cb hcb; simp [cbcEnc] at hcb
  | cons b bs ih =>
      intro prev cb hcb
      simp only [cbcEnc, List.mem_cons] at hcb
      rcases hcb with h | h
      · intro x hx
        exact blockEnc_lt key _ x (h ▸ hx)
      · exact ih (blockEnc key (xorB prev b)) cb h

theorem cbcDec_cbcEnc (key : List Nat) (hkey : ∀ y ∈ key, y < 256)
    (hklen : 16 ≤ key.length) :
    ∀ (bls : List (List Nat)) (prev : List Nat),
      (∀ b ∈ bls, b.length = 16 ∧ ∀ x ∈ b, x < 256) →
      prev.length = 16 → (∀ x ∈ prev, x < 256) →
      cbcDec key prev (cbcEnc key prev bls) = bls := by
  intro bls
  induction bls with
  | nil => intro prev _ _ _; rfl
  | cons b bs ih =>
      intro prev hbls hprev hprevB
      obtain ⟨hb16, hbB⟩ := hbls b (by simp)
      have hxl : (xorB prev b).length = 16 := by
        rw [xorB_length, hprev, hb16]; simp
      have hxB : ∀ x ∈ xorB prev b, x < 256 := xorB_lt prev b hprevB hbB
      simp only [cbcEnc, cbcDec]
      congr 1
      · rw [blockDec_blockEnc key _ hkey hklen hxB hxl]
        exact xorB_xorB prev b (by omega)
      · exact ih (blockEnc key (xorB prev b))
          (fun u hu => hbls u (by simp [hu]))
          (blockEnc_length key _ hklen hxl)
          (blockEnc_lt key _)

/-! ## Chunking lemmas -/

theorem chunk16Aux_fuel :
    ∀ (n m : Nat) (l : List Nat), l.length ≤ n → l.length ≤ m →
      chunk16Aux n l = chunk16Aux m l := by
  intro n
  induction n with
  | zero =>
      intro m l hn _
      have hl : l = [] := List.eq_nil_of_length_eq_zero (by omega)
      subst hl
      cases m <;> rfl
  | succ n ih =>
      intro m l hn hm
      cases l with
      | nil => cases m <;> rfl
      | cons x xs =>
          cases m with
          | zero => simp at hm
          | succ m =>
              show ((x :: xs).take 16) :: chunk16Aux n ((x :: xs).drop 16) =
                ((x :: xs).take 16) :: chunk16Aux m ((x :: xs).drop 16)
              congr 1
              apply ih
              · simp only [List.length_drop, List.length_cons] at hn ⊢
                omega
              · simp only [List.length_drop, List.length_cons] at hm ⊢
                omega

theorem chunk16_nil : chunk16 [] = [] := rfl

theorem chunk16_cons (x : Nat) (xs : List Nat) :
    chunk16 (x :: xs) = ((x :: xs).take 16) :: chunk16 ((x :: xs).drop 16) := by
  show ((x :: xs).take 16) :: chunk16Aux xs.length ((x :: xs).drop 16) =
    ((x :: xs).take 16) :: chunk16Aux ((x :: xs).drop 16).length ((x :: xs).drop 16)
  congr 1
  apply chunk16Aux_fuel
  · simp only [List.length_drop, List.length_cons]
    omega
  · exact le_refl _

theorem chunk16_flatten_aux :
    ∀ (n : Nat) (l : List Nat), l.length ≤ n → (chunk16 l).flatten = l := by
  intro n
  induction n with
  | zero =>
      intro l hl
      have hl0 : l = [] := List.eq_nil_of_length_eq_zero (by omega)
      simp [hl0, chunk16_nil]
  | succ n ih =>
      intro l hl
      cases l with
      | nil => simp [chunk16_nil]
      | cons x xs =>
          rw [chunk16_cons]
          simp only [List.flatten_cons]
          rw [ih ((x :: xs).drop 16)
            (by simp only [List.length_drop, List.length_cons] at hl ⊢; omega)]
          exact List.take_append_drop 16 (x :: xs)

theorem chunk16_flatten (l : List Nat) : (chunk16 l).flatten = l :=
  chunk16_flatten_aux l.length l (le_refl _)

theorem chunk16_of_blocks :
    ∀ (bls : List (List Nat)), (∀ b ∈ bls, b.length = 16) →
      chunk16 bls.flatten = bls := by
  intro bls
  induction bls with
  | nil => intro _; simp [chunk16_nil]
  | cons b bs ih =>
      intro hb
      have hb16 : b.length = 16 := hb b (by simp)
      cases b with
      | nil => simp at hb16
      | cons x xs =>
          simp only [List.flatten_cons, List.cons_append]
          rw [chunk16_cons]
          have e1 : (x :: (xs ++ bs.flatten)).take 16 = x :: xs := by
            rw [show x :: (xs ++ bs.flatten) = (x :: xs) ++ bs.flatten from rfl]
            exact List.take_left' hb16
          have e2 : (x :: (xs ++ bs.flatten)).drop 16 = bs.flatten := by
            rw [show x :: (xs ++ bs.flatten) = (x :: xs) ++ bs.flatten from rfl]
            exact List.drop_left' hb16
          rw [e1, e2, ih (fun u hu => hb u (by simp [hu]))]

theorem chunk16_block_length :
    ∀ (n : Nat) (l : List Nat), l.length ≤ n → l.length % 16 = 0 →
      ∀ b ∈ chunk16 l, b.length = 16 := by
  intro n
  induction n with
  | zero =>
      intro l hl _ b hb
      have hl0 : l = [] := List.eq_nil_of_length_eq_zero (by omega)
      subst hl0
      simp [chunk16_nil] at hb
  | succ n ih =>
      intro l hl hmod b hb
      cases l with
      | nil => simp [chunk16_nil] at hb
      | cons x xs =>
          rw [chunk16_cons] at hb
          simp only [List.mem_cons] at hb
          rcases hb with h | h
          · have h16 : 16 ≤ (x :: xs).length := by
              simp only [List.length_cons] at hmod ⊢
              omega
            rw [h, List.length_take]
            omega
          · exact ih ((x :: xs).drop 16)
              (by simp only [List.length_drop, List.length_cons] at hl ⊢; omega)
              (by simp only [List.length_drop, List.length_cons] at hmod ⊢; omega)
              b h

theorem chunk16_count :
    ∀ (n : Nat) (l : List Nat), l.length ≤ n → l.length % 16 = 0 →
      (chunk16 l).length = l.length / 16 := by
  intro n
  induction n with
  | zero =>
      intro l hl _
      have hl0 : l = [] := List.eq_nil_of_length_eq_zero (by omega)
      simp [hl0, chunk16_nil]
  | succ n ih =>
      intro l hl hmod
      cases l with
      | nil => simp [chunk16_nil]
      | cons x xs =>
          rw [chunk16_cons]
          simp only [List.length_cons]
          rw [ih ((x :: xs).drop 16)
            (by simp only [List.length_drop, List.length_cons] at hl ⊢; omega)
            (by simp only [List.length_drop, List.length_cons] at hmod ⊢; omega)]
          simp only [List.length_drop, List.length_cons]
          simp only [List.length_cons] at hmod
          omega

theorem chunk16_mem_mem :
    ∀ (n : Nat) (l : List Nat), l.length ≤ n →
      ∀ b ∈ chunk16 l, ∀ x ∈ b, x ∈ l := by
  intro n
  induction n with
  | zero =>
      intro l hl b hb
      have hl0 : l = [] := List.eq_nil_of_length_eq_zero (by omega)
      subst hl0
      simp [chunk16_nil] at hb
  | succ n ih =>
      intro l hl b hb x hx
      cases l with
      | nil => simp [chunk16_nil] at hb
      | cons y ys =>
          rw [chunk16_cons] at hb
          simp only [List.mem_cons] at hb
          rcases hb with h | h
          · exact List.take_subset 16 (y :: ys) (h ▸ hx)
          · exact List.drop_subset 16 (y :: ys)
              (ih ((y :: ys).drop 16)
                (by simp only [List.length_drop, List.length_cons] at hl ⊢; omega)
                b h x hx)

theorem flatten_length_16 :
    ∀ (bls : List (List Nat)), (∀ b ∈ bls, b.length = 16) →
      bls.flatten.length = 16 * bls.length := by
  intro bls
  induction bls with
  | nil => intro _; simp
  | cons b bs ih =>
      intro hb
      simp only [List.flatten_cons, List.length_append, List.length_cons]
      rw [hb b (by simp), ih (fun u hu => hb u (by simp [hu]))]
      ring

/-! ## PKCS#7 lemmas -/

theorem pkcs7Pad_length (m : List Nat) :
    (pkcs7Pad m).length = m.length + (16 - m.length % 16) := by
  simp [pkcs7Pad]

theorem pkcs7Pad_length_mod (m : List Nat) : (pkcs7Pad m).length % 16 = 0 := by
  rw [pkcs7Pad_length]
  omega

theorem pkcs7Pad_lt (m : List Nat) (h : ∀ b ∈ m, b < 256) :
    ∀ b ∈ pkcs7Pad m, b < 256 := by
  intro b hb
  simp only [pkcs7Pad, List.mem_append, List.mem_replicate] at hb
  rcases hb with hm | ⟨_, he⟩
  · exact h b hm
  · omega

theorem pkcs7Unpad_pad (m : List Nat) : pkcs7Unpad (pkcs7Pad m) = some m := by
  have hp : pkcs7Pad m =
      m ++ List.replicate (16 - m.length % 16) (16 - m.length % 16) := by
    simp [pkcs7Pad]
  generalize hdef : 16 - m.length % 16 = n at hp
  have hn1 : 1 ≤ n := by omega
  have hn16 : n ≤ 16 := by omega
  have hrep : List.replicate n n = List.replicate (n - 1) n ++ [n] := by
    have he := List.replicate_succ' (n - 1) n
    rw [show n - 1 + 1 = n from by omega] at he
    exact he
  have hlast : (m ++ List.replicate n n).getLast? = some n := by
    rw [hrep, ← List.append_assoc]
    exact List.getLast?_concat _
  have hlen : (m ++ List.replicate n n).length = m.length + n := by simp
  have hsub : (m ++ List.replicate n n).length - n = m.length := by
    rw [hlen]; omega
  rw [hp]
  simp only [pkcs7Unpad, hlast]
  rw [if_neg (by omega), hsub, List.drop_left, List.take_left, if_pos]
  rw [List.all_eq_true]
  intro x hx
  rw [List.mem_replicate] at hx
  simp [hx.2]

/-! ## Encryption round trip and lengths -/

theorem encryptBytes_length (m pw salt iv : List Nat) (hiv : iv.length = 16) :
    (encryptBytes m pw salt iv).length = (pkcs7Pad m).length := by
  unfold encryptBytes
  have hk : 16 ≤ (deriveKey pw salt).length := by
    rw [deriveKey_length]
    omega
  have hblocks : ∀ b ∈ chunk16 (pkcs7Pad m), b.length = 16 :=
    chunk16_block_length (pkcs7Pad m).length _ (le_refl _) (pkcs7Pad_length_mod m)
  have henc : ∀ cb ∈ cbcEnc (deriveKey pw salt) iv (chunk16 (pkcs7Pad m)),
      cb.length = 16 :=
    cbcEnc_block_length _ hk _ iv hblocks hiv
  rw [flatten_length_16 _ henc, cbcEnc_count,
    chunk16_count (pkcs7Pad m).length _ (le_refl _) (pkcs7Pad_length_mod m)]
  have := pkcs7Pad_length_mod m
  omega

theorem decryptBytes_encryptBytes (m pw salt iv : List Nat)
    (hm : ∀ b ∈ m, b < 256) (hiv : iv.length = 16)
    (hivB : ∀ x ∈ iv, x < 256) :
    decryptBytes salt iv (encryptBytes m pw salt iv) pw = some m := by
  have hk : 16 ≤ (deriveKey pw salt).length := by
    rw [deriveKey_length]; omega
  have hkB : ∀ y ∈ deriveKey pw salt, y < 256 := deriveKey_lt pw salt
  have hblocks : ∀ b ∈ chunk16 (pkcs7Pad m), b.length = 16 :=
    chunk16_block_length (pkcs7Pad m).length _ (le_refl _) (pkcs7Pad_length_mod m)
  have hblocksB : ∀ b ∈ chunk16 (pkcs7Pad m), ∀ x ∈ b, x < 256 := by
    intro b hb x hx
    exact pkcs7Pad_lt m hm x
      (chunk16_mem_mem (pkcs7Pad m).length _ (le_refl _) b hb x hx)
  have hEl : (encryptBytes m pw salt iv).length = (pkcs7Pad m).length :=
    encryptBytes_length m pw salt iv hiv
  have hPadLen : (pkcs7Pad m).length % 16 = 0 := pkcs7Pad_length_mod m
  have hPadPos : 0 < (pkcs7Pad m).length := by
    rw [pkcs7Pad_length]
    omega
  unfold decryptBytes
  rw [if_neg (by omega)]
  have hchunk : chunk16 (encryptBytes m pw salt iv) =
      cbcEnc (deriveKey pw salt) iv (chunk16 (pkcs7Pad m)) := by
    unfold encryptBytes
    exact chunk16_of_blocks _ (cbcEnc_block_length _ hk _ iv hblocks hiv)
  rw [hchunk, cbcDec_cbcEnc _ hkB hk _ iv
    (fun b hb => ⟨hblocks b hb, hblocksB b hb⟩) hiv hivB,
    chunk16_flatten, pkcs7Unpad_pad]

/-! ## Frame codec lemmas -/

theorem tagBytes_length (fam : Family) (enc : Bool) :
    (tagBytes fam enc).length = tagLen fam := by
  cases fam <;> cases enc <;> rfl

theorem tagBytes_ne (fam : Family) : tagBytes fam false ≠ tagBytes fam true := by
  cases fam <;> decide

theorem tagBytes_lt (fam : Family) (enc : Bool) :
    ∀ b ∈ tagBytes fam enc, b < 256 := by
  cases fam <;> cases enc <;> decide

theorem terminatorBytes_length : terminatorBytes.length = 5 := rfl

theorem scanTerm_append (inner : List Nat) (r : List Nat) (h : noEarlyTerm inner) :
    scanTerm (inner ++ terminatorBytes ++ r) = some inner := by
  induction inner with
  | nil =>
      have he : ([] : List Nat) ++ terminatorBytes ++ r =
          36 :: (83 :: 84 :: 79 :: 80 :: r) := rfl
      rw [he, scanTerm]
      rw [if_pos (show List.take terminatorBytes.length
        (36 :: 83 :: 84 :: 79 :: 80 :: r) = terminatorBytes from rfl)]
  | cons b inner ih =>
      have he : (b :: inner) ++ terminatorBytes ++ r =
          b :: (inner ++ terminatorBytes ++ r) := by simp
      rw [he, scanTerm]
      have t1 : ((b :: inner) ++ (terminatorBytes ++ r)).take terminatorBytes.length =
          (b :: inner).take terminatorBytes.length ++
            (terminatorBytes ++ r).take
              (terminatorBytes.length - (b :: inner).length) :=
        List.take_append_eq_append_take
      have t2 : ((b :: inner) ++ terminatorBytes).take terminatorBytes.length =
          (b :: inner).take terminatorBytes.length ++
            terminatorBytes.take
              (terminatorBytes.length - (b :: inner).length) :=
        List.take_append_eq_append_take
      have t3 : (terminatorBytes ++ r).take
            (terminatorBytes.length - (b :: inner).length) =
          terminatorBytes.take (terminatorBytes.length - (b :: inner).length) := by
        rw [List.take_append_eq_append_take,
          show terminatorBytes.length - (b :: inner).length -
            terminatorBytes.length = 0 from by omega]
        simp
      have hc : (b :: (inner ++ terminatorBytes ++ r)).take terminatorBytes.length =
          ((b :: inner) ++ terminatorBytes).take terminatorBytes.length := by
        rw [← he, List.append_assoc, t1, t3, ← t2]
      have h0 := h 0 (by simp)
      rw [List.drop_zero] at h0
      rw [if_neg (by rw [hc]; exact h0)]
      have hshift : noEarlyTerm inner := by
        intro p hp
        have hst := h (p + 1) (by simp; omega)
        rw [show (b :: inner) ++ terminatorBytes =
          b :: (inner ++ terminatorBytes) from by simp] at hst
        rw [List.drop_succ_cons] at hst
        exact hst
      rw [ih hshift]
      rfl

theorem unframe_frame (fam : Family) (enc : Bool) (inner r : List Nat)
    (h : noEarlyTerm inner) :
    unframe fam (frameBytes fam enc inner ++ r) = .ok (enc, inner) := by
  have hsplit : frameBytes fam enc inner ++ r =
      tagBytes fam enc ++ (inner ++ terminatorBytes ++ r) := by
    simp [frameBytes, List.append_assoc]
  have hs := scanTerm_append inner r h
  unfold unframe
  rw [hsplit, List.take_left' (tagBytes_length fam enc),
    List.drop_left' (tagBytes_length fam enc)]
  cases enc with
  | true =>
      rw [if_pos rfl, hs]
  | false =>
      rw [if_neg (tagBytes_ne fam), if_pos rfl, hs]

theorem frameBytes_length (fam : Family) (enc : Bool) (inner : List Nat) :
    (frameBytes fam enc inner).length =
      tagLen fam + inner.length + terminatorBytes.length := by
  simp [frameBytes, tagBytes_length]
  omega

theorem terminatorBytes_lt : ∀ b ∈ terminatorBytes, b < 256 := by decide

theorem frameBytes_lt (fam : Family) (enc : Bool) (inner : List Nat)
    (h : ∀ b ∈ inner, b < 256) : ∀ b ∈ frameBytes fam enc inner, b < 256 := by
  intro b hb
  simp only [frameBytes, List.mem_append] at hb
  rcases hb with (hb | hb) | hb
  · exact tagBytes_lt fam enc b hb
  · exact h b hb
  · exact terminatorBytes_lt b hb

theorem encryptBytes_lt (m pw salt iv : List Nat) :
    ∀ x ∈ encryptBytes m pw salt iv, x < 256 := by
  intro x hx
  unfold encryptBytes at hx
  rw [List.mem_flatten] at hx
  obtain ⟨bl, hbl, hxbl⟩ := hx
  exact cbcEnc_block_lt _ _ iv bl hbl x hxbl

theorem innerBytes_lt (m pw salt iv : List Nat) (hm : ∀ b ∈ m, b < 256)
    (hsB : ∀ b ∈ salt, b < 256) (hivB : ∀ b ∈ iv, b < 256) :
    ∀ b ∈ innerBytes m pw salt iv, b < 256 := by
  intro b hb
  unfold innerBytes at hb
  by_cases hp : pw.isEmpty
  · rw [if_pos hp] at hb
    exact hm b hb
  · rw [if_neg hp] at hb
    simp only [List.mem_append] at hb
    rcases hb with (hb | hb) | hb
    · exact hsB b hb
    · exact hivB b hb
    · exact encryptBytes_lt m pw salt iv b hb

/-! ## Pipeline lemmas -/

theorem encode_ok (c : Carrier) (m pw salt iv : List Nat) (hm : m ≠ [])
    (hplan : m.length ≤ usableBytes c (!pw.isEmpty))
    (hfit : 8 * (frameBytes c.family (!pw.isEmpty)
      (innerBytes m pw salt iv)).length ≤ capacityBits c) :
    encode c m pw salt iv = .ok (writeBits c (bitsOf
      (frameBytes c.family (!pw.isEmpty) (innerBytes m pw salt iv)))) := by
  have h1 : ¬(m.isEmpty = true) := by
    simp only [List.isEmpty_iff]
    exact hm
  have h3 : ¬(capacityBits c < (bitsOf (frameBytes c.family (!pw.isEmpty)
      (innerBytes m pw salt iv))).length) := by
    rw [bitsOf_length]
    omega
  unfold encode
  rw [if_neg h1, if_neg (Nat.not_lt.mpr hplan), if_neg h3]

theorem decode_of_unframe_encrypted (c : Carrier) (pw inner : List Nat)
    (h : unframe c.family (bytesOfAux (readBits c)) = .ok (true, inner)) :
    decode c pw = if pw.isEmpty then .error .passwordRequired
      else
        match decryptInner inner pw with
        | some m => .ok m
        | none => .error .authenticationError := by
  unfold decode
  rw [h]
  rfl

theorem decode_of_unframe_plain (c : Carrier) (pw inner : List Nat)
    (h : unframe c.family (bytesOfAux (readBits c)) = .ok (false, inner)) :
    decode c pw = .ok inner := by
  unfold decode
  rw [h]
  rfl

theorem decode_of_unframe_error (c : Carrier) (pw : List Nat) (e : StegError)
    (h : unframe c.family (bytesOfAux (readBits c)) = .error e) :
    decode c pw = .error e := by
  unfold decode
  rw [h]

/-- The heart of the round-trip property: an encode that passes both
capacity checks embeds the complete frame, and decoding the produced
carrier with the same password recovers exactly the original message,
provided the terminator sequence does not occur early inside the framed
inner bytes. -/
theorem encode_decode (c : Carrier) (m pw salt iv : List Nat)
    (hm : m ≠ []) (hmB : ∀ b ∈ m, b < 256)
    (hsalt : salt.length = 16) (hsB : ∀ b ∈ salt, b < 256)
    (hiv : iv.length = 16) (hivB : ∀ b ∈ iv, b < 256)
    (hplan : m.length ≤ usableBytes c (!pw.isEmpty))
    (hfit : 8 * (frameBytes c.family (!pw.isEmpty)
      (innerBytes m pw salt iv)).length ≤ capacityBits c)
    (hterm : noEarlyTerm (innerBytes m pw salt iv)) :
    (encode c m pw salt iv).bind (fun c2 => decode c2 pw) = .ok m := by
  have hB : ∀ b ∈ innerBytes m pw salt iv, b < 256 :=
    innerBytes_lt m pw salt iv hmB hsB hivB
  rw [encode_ok c m pw salt iv hm hplan hfit]
  show decode (writeBits c (bitsOf (frameBytes c.family (!pw.isEmpty)
    (innerBytes m pw salt iv)))) pw = .ok m
  set fb := frameBytes c.family (!pw.isEmpty) (innerBytes m pw salt iv) with hfb
  have hread : bytesOfAux (readBits (writeBits c (bitsOf fb))) =
      fb ++ bytesOfAux ((readBits c).drop (bitsOf fb).length) := by
    rw [readBits_writeBits c _ (bitsOf_le_one fb)]
    rw [List.take_of_length_le (by rw [bitsOf_length]; exact hfit)]
    exact bytesOfAux_bitsOf fb _ (frameBytes_lt _ _ _ hB)
  have hunf : unframe (writeBits c (bitsOf fb)).family
      (bytesOfAux (readBits (writeBits c (bitsOf fb)))) =
      .ok (!pw.isEmpty, innerBytes m pw salt iv) := by
    rw [family_writeBits, hread, hfb]
    exact unframe_frame c.family _ _ _ hterm
  by_cases hp : pw.isEmpty
  · have hflag : (!pw.isEmpty) = false := by simp [hp]
    rw [hflag] at hunf
    rw [decode_of_unframe_plain _ pw _ hunf]
    unfold innerBytes
    rw [if_pos hp]
  · have hflag : (!pw.isEmpty) = true := by simp [hp]
    rw [hflag] at hunf
    rw [decode_of_unframe_encrypted _ pw _ hunf, if_neg hp]
    have hinner : innerBytes m pw salt iv =
        salt ++ (iv ++ encryptBytes m pw salt iv) := by
      unfold innerBytes
      rw [if_neg hp, List.append_assoc]
    have hlen32 : ¬((salt ++ (iv ++ encryptBytes m pw salt iv)).length < 32) := by
      simp only [List.length_append, hsalt, hiv]
      omega
    have h32 : (salt ++ (iv ++ encryptBytes m pw salt iv)).drop 32 =
        encryptBytes m pw salt iv := by
      rw [show salt ++ (iv ++ encryptBytes m pw salt iv) =
        (salt ++ iv) ++ encryptBytes m pw salt iv from
          (List.append_assoc _ _ _).symm]
      exact List.drop_left' (by rw [List.length_append, hsalt, hiv])
    have h16a : (salt ++ (iv ++ encryptBytes m pw salt iv)).take 16 = salt :=
      List.take_left' hsalt
    have h16b : ((salt ++ (iv ++ encryptBytes m pw salt iv)).drop 16).take 16 = iv := by
      rw [List.drop_left' hsalt]
      exact List.take_left' hiv
    have hd : decryptInner (salt ++ (iv ++ encryptBytes m pw salt iv)) pw = some m := by
      unfold decryptInner
      rw [if_neg hlen32, h16a, h16b, h32]
      exact decryptBytes_encryptBytes m pw salt iv hmB hiv hivB
    rw [hinner, hd]

/-- Characterization of the `InsufficientCapacityError` outcome of
encode: it occurs exactly when the planner check or the frame-fit check
trips. -/
theorem encode_insufficient_iff (c : Carrier) (m pw salt iv : List Nat)
    (hm : m ≠ []) :
    (encode c m pw salt iv = .error .insufficientCapacity ↔
      usableBytes c (!pw.isEmpty) < m.length ∨
        capacityBits c < 8 * (frameBytes c.family (!pw.isEmpty)
          (innerBytes m pw salt iv)).length) := by
  have h1 : ¬(m.isEmpty = true) := by
    simp only [List.isEmpty_iff]
    exact hm
  unfold encode
  rw [if_neg h1]
  by_cases h2 : usableBytes c (!pw.isEmpty) < m.length
  · rw [if_pos h2]
    simp [h2]
  · rw [if_neg h2]
    rw [bitsOf_length]
    by_cases h3 : capacityBits c < 8 * (frameBytes c.family (!pw.isEmpty)
        (innerBytes m pw salt iv)).length
    · rw [if_pos h3]
      simp [h2, h3]
    · rw [if_neg h3]
      simp [h2, h3]

theorem innerBytes_length_plain (m salt iv : List Nat) :
    (innerBytes m [] salt iv).length = m.length := by
  simp [innerBytes]

theorem innerBytes_length_enc (m pw salt iv : List Nat) (hpw : pw ≠ [])
    (hsalt : salt.length = 16) (hiv : iv.length = 16) :
    (innerBytes m pw salt iv).length =
      32 + (m.length + (16 - m.length % 16)) := by
  unfold innerBytes
  rw [if_neg (by simp [List.isEmpty_iff]; exact hpw)]
  rw [List.length_append, List.length_append, hsalt, hiv,
    encryptBytes_length m pw salt iv hiv, pkcs7Pad_length]

/-! ## Coefficient delta lemmas (for the JPEG invariant) -/

theorem setCoeffLSB_delta (v : Int) (b : Nat) (hb : b ≤ 1)
    (hv : embeddableCoeff v = true) : (setCoeffLSB v b - v).natAbs ≤ 1 := by
  unfold embeddableCoeff at hv
  simp only [Bool.and_eq_true, decide_eq_true_eq] at hv
  unfold setCoeffLSB
  by_cases h : v < 0
  · rw [if_pos h]
    omega
  · rw [if_neg h]
    omega

theorem forall₂_coeff_refl :
    ∀ (l : List Int), List.Forall₂
      (fun v v2 => (v = 0 → v2 = v) ∧ (v2 - v).natAbs ≤ 1) l l := by
  intro l
  induction l with
  | nil => exact List.Forall₂.nil
  | cons v l ih =>
      exact List.Forall₂.cons (by constructor <;> intros <;> omega) ih

theorem writeCoeffList_forall₂ (vs : List Int) (bits : List Nat)
    (hb : ∀ x ∈ bits, x ≤ 1) :
    List.Forall₂ (fun v v2 => (v = 0 → v2 = v) ∧ (v2 - v).natAbs ≤ 1)
      vs (writeCoeffList vs bits).1 := by
  induction vs generalizing bits with
  | nil => exact List.Forall₂.nil
  | cons v vs ih =>
      by_cases hv : embeddableCoeff v = true
      · cases bits with
        | nil =>
            rw [writeCoeffList_nil]
            exact forall₂_coeff_refl _
        | cons b bs =>
            have hb0 : b ≤ 1 := hb b (by simp)
            have hw : writeCoeffList (v :: vs) (b :: bs) =
                (setCoeffLSB v b :: (writeCoeffList vs bs).1,
                  (writeCoeffList vs bs).2) := by
              simp [writeCoeffList, hv]
            rw [hw]
            refine List.Forall₂.cons ⟨?_, setCoeffLSB_delta v b hb0 hv⟩
              (ih bs (fun x hx => hb x (by simp [hx])))
            intro hv0
            unfold embeddableCoeff at hv
            simp only [Bool.and_eq_true, decide_eq_true_eq] at hv
            omega
      · have hw : writeCoeffList (v :: vs) bits =
            (v :: (writeCoeffList vs bits).1, (writeCoeffList vs bits).2) := by
          simp [writeCoeffList, hv]
        rw [hw]
        exact List.Forall₂.cons (by constructor <;> intros <;> omega) (ih bits hb)

theorem writeBlocks_forall₂ (bls : List (List Int)) (bits : List Nat)
    (hb : ∀ x ∈ bits, x ≤ 1) :
    List.Forall₂ (fun bl bl2 =>
      bl.head? = bl2.head? ∧
      List.Forall₂ (fun v v2 => (v = 0 → v2 = v) ∧ (v2 - v).natAbs ≤ 1) bl bl2)
      bls (writeBlocks bls bits).1 := by
  induction bls generalizing bits with
  | nil => exact List.Forall₂.nil
  | cons bl bls ih =>
      cases bl with
      | nil =>
          exact List.Forall₂.cons ⟨rfl, List.Forall₂.nil⟩ (ih bits hb)
      | cons dc rest =>
          refine List.Forall₂.cons ⟨rfl, ?_⟩ ?_
          · exact List.Forall₂.cons (by constructor <;> intros <;> omega)
              (writeCoeffList_forall₂ rest bits hb)
          · refine ih (writeCoeffList rest bits).2 ?_
            rw [(writeCoeffList_spec rest bits hb).2]
            intro x hx
            exact hb x (List.mem_of_mem_drop hx)

/-! ## Pixel enumeration characterization -/

theorem readPixels_flatMap_range (ps : List (List Nat)) :
    readPixels ps = (List.range ps.length).flatMap
      (fun i => ((ps.getD i []).take 3).map (fun v => v % 2)) := by
  induction ps with
  | nil => rfl
  | cons p ps ih =>
      rw [readPixels, ih]
      rw [List.length_cons, List.range_succ_eq_map, List.flatMap_cons,
        List.flatMap_map]
      simp only [List.getD_cons_zero, Function.comp, List.getD_cons_succ]

theorem readPixels_length_replicate (n : Nat) (p : List Nat) :
    (readPixels (List.replicate n p)).length = n * (p.take 3).length := by
  induction n with
  | zero => simp [readPixels]
  | succ n ih =>
      rw [List.replicate_succ, readPixels, List.length_append, ih,
        List.length_map]
      ring

theorem usableBytes_eq (c : Carrier) (e : Bool) :
    usableBytes c e = capacityBits c / 8 - overheadBytes c.family e := rfl

theorem carrier100_family : carrier100.family = Family.pv := rfl

/-! ## Claim theorems -/

/-- Claim C1, amended: decoding the carrier produced by a successful
encode with the same password returns exactly the original message, for
every carrier of either kind, every non-empty in-range message and every
password, PROVIDED the packed frame fits the carrier's bit capacity
(which the planner's 32-byte allowance does not always guarantee under
encryption) and the terminator byte sequence does not occur early inside
the framed inner bytes (a message or ciphertext containing the
terminator is truncated by the decode scan). -/
theorem claim_C1_roundtrip (c : Carrier) (m pw salt iv : List Nat)
    (hm : m ≠ []) (hmB : ∀ b ∈ m, b < 256)
    (hsalt : salt.length = 16) (hsB : ∀ b ∈ salt, b < 256)
    (hiv : iv.length = 16) (hivB : ∀ b ∈ iv, b < 256)
    (hplan : m.length ≤ usableBytes c (!pw.isEmpty))
    (hfit : 8 * (frameBytes c.family (!pw.isEmpty)
      (innerBytes m pw salt iv)).length ≤ capacityBits c)
    (hterm : noEarlyTerm (innerBytes m pw salt iv)) :
    (encode c m pw salt iv).bind (fun c2 => decode c2 pw) = .ok m :=
  encode_decode c m pw salt iv hm hmB hsalt hsB hiv hivB hplan hfit hterm

/-- Witness for claim C1: a concrete one-byte plain round trip on a
40-pixel carrier, every hypothesis discharged by evaluation. -/
theorem claim_C1_roundtrip_witness :
    (encode carrier40 [72] [] saltZero ivZero).bind (fun c2 => decode c2 []) =
      .ok [72] :=
  claim_C1_roundtrip carrier40 [72] [] saltZero ivZero (by decide) (by decide)
    (by decide) (by decide) (by decide) (by decide) (by decide) (by decide)
    (by decide)

/-- Counterexample to claim C1 as stated: the 5-byte message equal to
the terminator sequence is non-empty and within the usable capacity of
`carrier51`, yet decode of its plain encode returns the empty byte
string, not the message: the terminator scan stops at the first
occurrence, which here is the message itself. -/
theorem claim_C1_counterexample :
    terminatorBytes ≠ [] ∧
    terminatorBytes.length ≤ usableBytes carrier51 false ∧
    (encode carrier51 terminatorBytes [] saltZero ivZero).bind
      (fun c2 => decode c2 []) = .ok [] ∧
    ([] : List Nat) ≠ terminatorBytes := by
  refine ⟨by decide, by decide, ?_, by decide⟩
  rfl

/-- Claim C2, amended: for a non-empty payload, encode fails with
`InsufficientCapacityError` exactly when the payload exceeds
`usable_bytes` in the plain case; in the encrypted case the boundary
also accounts for the PKCS#7 padding (1 to 16 extra bytes) that the
32-byte overhead allowance does not cover, so the failure condition is
`usable_bytes < padded_length(payload)`. -/
theorem claim_C2_capacity (c : Carrier) (m pw salt iv : List Nat)
    (hm : m ≠ []) (hsalt : salt.length = 16) (hiv : iv.length = 16) :
    (pw = [] → (encode c m pw salt iv = .error .insufficientCapacity ↔
      usableBytes c false < m.length)) ∧
    (pw ≠ [] → (encode c m pw salt iv = .error .insufficientCapacity ↔
      usableBytes c true < m.length + (16 - m.length % 16))) := by
  have hlen : 0 < m.length := List.length_pos.mpr hm
  constructor
  · intro hpw
    subst hpw
    rw [encode_insufficient_iff c m [] salt iv hm]
    have hflag : (!([] : List Nat).isEmpty) = false := rfl
    rw [hflag, frameBytes_length, innerBytes_length_plain,
      terminatorBytes_length]
    unfold usableBytes overheadBytes
    simp only [Bool.false_eq_true, if_false, terminatorBytes_length]
    omega
  · intro hpw
    rw [encode_insufficient_iff c m pw salt iv hm]
    have hflag : (!pw.isEmpty) = true := by
      rw [List.isEmpty_eq_false.mpr hpw]
      rfl
    rw [hflag, frameBytes_length,
      innerBytes_length_enc m pw salt iv hpw hsalt hiv, terminatorBytes_length]
    unfold usableBytes overheadBytes
    simp only [if_true, terminatorBytes_length]
    omega

/-- Witness for claim C2: on a 384-bit carrier with encryption
requested, a 2-byte payload (2 more than the padded boundary allows)
fails with `InsufficientCapacityError`, through the amended
biconditional. -/
theorem claim_C2_capacity_witness :
    encode carrier128 [65, 66] pwOne saltZero ivZero =
      .error .insufficientCapacity :=
  ((claim_C2_capacity carrier128 [65, 66] pwOne saltZero ivZero
    (by decide) (by decide) (by decide)).2 (by decide)).mpr (by decide)

/-- Counterexample to claim C2 as stated: a payload of exactly
`usable_bytes` (= 2) under encrypted accounting on `carrier128` does not
succeed but fails with `InsufficientCapacityError`: the padded
ciphertext plus salt and IV need 16 more bytes than the 32-byte
allowance provides. -/
theorem claim_C2_counterexample :
    ([65, 66] : List Nat).length = usableBytes carrier128 true ∧
    encode carrier128 [65, 66] pwOne saltZero ivZero =
      .error .insufficientCapacity := by
  exact ⟨by decide, by rfl⟩

/-- Claim C3, amended: on a carrier whose frame says encrypted, decoding
with any non-empty password raises `AuthenticationError` exactly when
the PKCS#7 padding is invalid after decryption (the `decryptInner`
result is `none`), and decode never presents bytes as success unless
they came from a decryption with valid padding. A wrong password is
*usually* caught this way, but padding-only validation cannot guarantee
it: with small probability the wrongly decrypted block ends in valid
padding and decode returns garbage as success (see the
counterexample). -/
theorem claim_C3_wrong_password (c : Carrier) (pw inner : List Nat)
    (h : unframe c.family (bytesOfAux (readBits c)) = .ok (true, inner))
    (hpw : pw ≠ []) :
    (decode c pw = .error .authenticationError ↔
      decryptInner inner pw = none) ∧
    (∀ m2, decode c pw = .ok m2 → decryptInner inner pw = some m2) := by
  have hd := decode_of_unframe_encrypted c pw inner h
  have hpe : ¬(pw.isEmpty = true) := by
    simp only [List.isEmpty_iff]
    exact hpw
  rw [hd, if_neg hpe]
  cases hdi : decryptInner inner pw with
  | some m2 => simp
  | none => simp

/-- Witness for claim C3: a concrete encrypted carrier decoded with the
wrong password `[1,2,3]`, the unframe hypothesis discharged by
evaluation. -/
theorem claim_C3_wrong_password_witness :
    (decode carrierEncA [1, 2, 3] = .error .authenticationError ↔
      decryptInner (innerBytes msgA15 pwOne saltZero ivZero) [1, 2, 3] = none) ∧
    (∀ m2, decode carrierEncA [1, 2, 3] = .ok m2 →
      decryptInner (innerBytes msgA15 pwOne saltZero ivZero) [1, 2, 3] = some m2) :=
  claim_C3_wrong_password carrierEncA [1, 2, 3]
    (innerBytes msgA15 pwOne saltZero ivZero) (by rfl) (by decide)

/-- Counterexample to claim C3 as stated: the password `pwTwo` differs
from the encode password `pwOne`, yet its derived key collides with
`pwOne`'s on the final key byte, so after decryption the final
PKCS#7 padding byte is intact; decode then succeeds and returns fifteen
garbage bytes, not an `AuthenticationError`. -/
theorem claim_C3_counterexample :
    pwTwo ≠ pwOne ∧
    (encode carrier166 msgA15 pwOne saltZero ivZero).bind
      (fun c2 => decode c2 pwTwo) =
      .ok [155, 149, 143, 137, 131, 125, 119, 113, 107, 101, 95, 89, 83, 77, 71] ∧
    ([155, 149, 143, 137, 131, 125, 119, 113, 107, 101, 95, 89, 83, 77, 71] :
      List Nat) ≠ msgA15 := by
  refine ⟨by decide, ?_, by decide⟩
  rfl

/-- Claim C4: a successful encode on a coefficient carrier changes each
quantized DCT coefficient by exactly 0 or 1 in either direction, never
modifies a zero coefficient, and never modifies the DC coefficient (the
head of each block). -/
theorem claim_C4_coefficient_invariant (blocks : List (List Int))
    (m pw salt iv : List Nat) (c2 : Carrier)
    (h : encode (.coeff blocks) m pw salt iv = .ok c2) :
    ∃ blocks2, c2 = .coeff blocks2 ∧
      List.Forall₂ (fun bl bl2 =>
        bl.head? = bl2.head? ∧
        List.Forall₂ (fun v v2 => (v = 0 → v2 = v) ∧ (v2 - v).natAbs ≤ 1)
          bl bl2)
        blocks blocks2 := by
  unfold encode at h
  by_cases h1 : m.isEmpty = true
  · rw [if_pos h1] at h
    exact absurd h (by simp)
  rw [if_neg h1] at h
  by_cases h2 : usableBytes (Carrier.coeff blocks) (!pw.isEmpty) < m.length
  · rw [if_pos h2] at h
    exact absurd h (by simp)
  rw [if_neg h2] at h
  by_cases h3 : capacityBits (Carrier.coeff blocks) <
      (bitsOf (frameBytes (Carrier.coeff blocks).family (!pw.isEmpty)
        (innerBytes m pw salt iv))).length
  · rw [if_pos h3] at h
    exact absurd h (by simp)
  rw [if_neg h3] at h
  simp only [Except.ok.injEq] at h
  refine ⟨(writeBlocks blocks (bitsOf (frameBytes
    (Carrier.coeff blocks).family (!pw.isEmpty)
    (innerBytes m pw salt iv)))).1, ?_, ?_⟩
  · rw [← h]
    rfl
  · exact writeBlocks_forall₂ blocks _ (bitsOf_le_one _)

/-- Witness for claim C4: a concrete one-byte plain encode into a
three-block coefficient carrier, the encode hypothesis discharged by
evaluation. -/
theorem claim_C4_coefficient_invariant_witness :
    ∃ blocks2, writeBits (Carrier.coeff blocksJpeg)
        (bitsOf (frameBytes Family.jpg false
          (innerBytes [65] [] saltZero ivZero))) = .coeff blocks2 ∧
      List.Forall₂ (fun bl bl2 =>
        bl.head? = bl2.head? ∧
        List.Forall₂ (fun v v2 => (v = 0 → v2 = v) ∧ (v2 - v).natAbs ≤ 1)
          bl bl2)
        blocksJpeg blocks2 :=
  claim_C4_coefficient_invariant blocksJpeg [65] [] saltZero ivZero
    (writeBits (Carrier.coeff blocksJpeg)
      (bitsOf (frameBytes Family.jpg false
        (innerBytes [65] [] saltZero ivZero)))) (by rfl)

/-- Claim C5: encode and decode are all-or-nothing. A successful encode
returns a carrier holding the complete packed frame with every unit
beyond it untouched (never a partially written carrier), and a
successful decode only ever returns the complete unframed (and, when the
frame says encrypted, fully decrypted and unpadded) plaintext; every
failure returns an error and no partial output. -/
theorem claim_C5_all_or_nothing (c : Carrier) (m pw salt iv pw2 : List Nat)
    (c2 : Carrier) (msg : List Nat) :
    (encode c m pw salt iv = .ok c2 →
      readBits c2 = bitsOf (frameBytes c.family (!pw.isEmpty)
        (innerBytes m pw salt iv)) ++
        (readBits c).drop (bitsOf (frameBytes c.family (!pw.isEmpty)
          (innerBytes m pw salt iv))).length) ∧
    (decode c pw2 = .ok msg →
      ∃ enc inner,
        unframe c.family (bytesOfAux (readBits c)) = .ok (enc, inner) ∧
        ((enc = false ∧ msg = inner) ∨
         (enc = true ∧ pw2 ≠ [] ∧ decryptInner inner pw2 = some msg))) := by
  constructor
  · intro h
    unfold encode at h
    by_cases h1 : m.isEmpty = true
    · rw [if_pos h1] at h
      exact absurd h (by simp)
    rw [if_neg h1] at h
    by_cases h2 : usableBytes c (!pw.isEmpty) < m.length
    · rw [if_pos h2] at h
      exact absurd h (by simp)
    rw [if_neg h2] at h
    by_cases h3 : capacityBits c < (bitsOf (frameBytes c.family (!pw.isEmpty)
        (innerBytes m pw salt iv))).length
    · rw [if_pos h3] at h
      exact absurd h (by simp)
    rw [if_neg h3] at h
    simp only [Except.ok.injEq] at h
    rw [← h, readBits_writeBits c _ (bitsOf_le_one _)]
    congr 1
    exact List.take_of_length_le (by omega)
  · intro h
    unfold decode at h
    cases hu : unframe c.family (bytesOfAux (readBits c)) with
    | error e =>
        rw [hu] at h
        exact absurd h (by simp)
    | ok pr =>
        obtain ⟨enc, inner⟩ := pr
        rw [hu] at h
        refine ⟨enc, inner, rfl, ?_⟩
        cases enc with
        | false =>
            simp only [Bool.false_eq_true, if_false, Except.ok.injEq] at h
            exact Or.inl ⟨rfl, h.symm⟩
        | true =>
            simp only [if_true] at h
            by_cases hp : pw2.isEmpty = true
            · rw [if_pos hp] at h
              exact absurd h (by simp)
            · rw [if_neg hp] at h
              cases hdi : decryptInner inner pw2 with
              | some mm =>
                  rw [hdi] at h
                  simp only [Except.ok.injEq] at h
                  refine Or.inr ⟨rfl, ?_, by rw [h]⟩
                  intro hnil
                  exact hp (by simp [hnil])
              | none =>
                  rw [hdi] at h
                  exact absurd h (by simp)

/-- Witness for claim C5: the encode half applied to a concrete one-byte
plain encode on a 40-pixel carrier: the output's bit stream is exactly
the packed frame followed by the untouched remainder. -/
theorem claim_C5_all_or_nothing_witness :
    readBits (writeBits carrier40 (bitsOf (frameBytes Family.pv false
        (innerBytes [72] [] saltZero ivZero)))) =
      bitsOf (frameBytes Family.pv false (innerBytes [72] [] saltZero ivZero)) ++
      (readBits carrier40).drop (bitsOf (frameBytes Family.pv false
        (innerBytes [72] [] saltZero ivZero))).length :=
  (claim_C5_all_or_nothing carrier40 [72] [] saltZero ivZero []
    (writeBits carrier40 (bitsOf (frameBytes Family.pv false
      (innerBytes [72] [] saltZero ivZero)))) []).1 (by rfl)

/-- Claim C6: when the frame's encryption flag says encrypted, decoding
with the empty (absent) password fails with `PasswordRequiredError`;
when the frame says plain, decode never requires a password: it returns
the inner bytes whatever the password and never raises
`PasswordRequiredError`. -/
theorem claim_C6_password_required (c : Carrier) (enc : Bool)
    (inner : List Nat)
    (h : unframe c.family (bytesOfAux (readBits c)) = .ok (enc, inner)) :
    (enc = true → decode c [] = .error .passwordRequired) ∧
    (enc = false → ∀ pw, decode c pw = .ok inner ∧
      decode c pw ≠ .error .passwordRequired) := by
  constructor
  · intro he
    subst he
    rw [decode_of_unframe_encrypted c [] inner h]
    rfl
  · intro he pw
    subst he
    rw [decode_of_unframe_plain c pw inner h]
    exact ⟨rfl, by simp⟩

/-- Witness for claim C6: the concrete encrypted carrier `carrierEncA`
decoded with the empty password fails with `PasswordRequiredError`. -/
theorem claim_C6_password_required_witness :
    decode carrierEncA [] = .error .passwordRequired :=
  (claim_C6_password_required carrierEncA true
    (innerBytes msgA15 pwOne saltZero ivZero) (by rfl)).1 rfl

/-- Claim C7: the enumeration of embeddable units is a pure function of
carrier content: for pixel carriers it is exactly the row-major raster
order over pixel indices with channels R, G, B (alpha skipped), and the
same enumeration serves encode (writes) and decode (reads): the bits
read back from a written carrier are the written bits (truncated to
capacity) followed by the original stream's tail. -/
theorem claim_C7_enumeration :
    (∀ (w h ch : Nat) (ps : List (List Nat)),
      readBits (.pixel w h ch ps) = (List.range ps.length).flatMap
        (fun i => ((ps.getD i []).take 3).map (fun v => v % 2))) ∧
    (∀ (c : Carrier) (bits : List Nat), (∀ b ∈ bits, b ≤ 1) →
      readBits (writeBits c bits) =
        bits.take (capacityBits c) ++ (readBits c).drop bits.length) := by
  constructor
  · intro w h ch ps
    exact readPixels_flatMap_range ps
  · intro c bits hb
    exact readBits_writeBits c bits hb

/-- Witness for claim C7: three bits written into the 40-pixel carrier
read back as written, followed by the untouched tail. -/
theorem claim_C7_enumeration_witness :
    readBits (writeBits carrier40 [1, 0, 1]) =
      ([1, 0, 1] : List Nat).take (capacityBits carrier40) ++
      (readBits carrier40).drop ([1, 0, 1] : List Nat).length :=
  claim_C7_enumeration.2 carrier40 [1, 0, 1] (by decide)

/-- Claim C8: the spec's concrete scenario: the 100 x 100 24-bit pixel
carrier has 3736 unencrypted usable bytes (approximately 3750);
requesting encryption adds exactly 32 bytes of overhead in the planner;
encoding the 5-byte message `Hello` with no password then decoding
returns `Hello`; and encoding it with password `Pass123` still round
trips. -/
theorem claim_C8_scenario :
    usableBytes carrier100 false = 3736 ∧
    3750 - usableBytes carrier100 false ≤ 50 ∧
    overheadBytes Family.pv true = overheadBytes Family.pv false + 32 ∧
    (encode carrier100 helloBytes [] saltOne ivOne).bind
      (fun c2 => decode c2 []) = .ok helloBytes ∧
    (encode carrier100 helloBytes pass123 saltOne ivOne).bind
      (fun c2 => decode c2 pass123) = .ok helloBytes := by
  have hcap : capacityBits carrier100 = 30000 := by
    show (readPixels (List.replicate 10000 [200, 200, 200])).length = 30000
    rw [readPixels_length_replicate]
    rfl
  have hov14 : overheadBytes Family.pv false = 14 := rfl
  have hov46 : overheadBytes Family.pv true = 46 := rfl
  have husable : usableBytes carrier100 false = 3736 := by
    rw [usableBytes_eq, carrier100_family, hcap, hov14]
  have husable2 : usableBytes carrier100 true = 3704 := by
    rw [usableBytes_eq, carrier100_family, hcap, hov46]
  refine ⟨husable, by rw [husable]; decide, by decide, ?_, ?_⟩
  · refine encode_decode carrier100 helloBytes [] saltOne ivOne (by decide)
      (by decide) (by decide) (by decide) (by decide) (by decide) ?_ ?_ (by decide)
    · show helloBytes.length ≤ usableBytes carrier100 false
      rw [husable]
      decide
    · rw [hcap, carrier100_family]
      decide
  · refine encode_decode carrier100 helloBytes pass123 saltOne ivOne (by decide)
      (by decide) (by decide) (by decide) (by decide) (by decide) ?_ ?_ (by decide)
    · show helloBytes.length ≤ usableBytes carrier100 true
      rw [husable2]
      decide
    · rw [hcap, carrier100_family]
      decide

/-- Claim C9: the PixelVault page's encode and decode requests carry a
`password` form field exactly when the password input is non-empty; an
empty password is never transmitted. -/
theorem claim_C9_password_field (f m pw : String) :
    (("password" ∈ (encodeFormFields f m pw).map Prod.fst) ↔ pw ≠ "") ∧
    (("password" ∈ (decodeFormFields f pw).map Prod.fst) ↔ pw ≠ "") := by
  by_cases hp : pw = ""
  · subst hp
    simp [encodeFormFields, decodeFormFields]
  · simp [encodeFormFields, decodeFormFields, hp]

/-- Witness for claim C9: with password `pw` the field is present; with
the empty password it is absent. -/
theorem claim_C9_password_field_witness :
    ("password" ∈ (encodeFormFields "img" "msg" "pw").map Prod.fst) ∧
    ¬("password" ∈ (encodeFormFields "img" "msg" "").map Prod.fst) :=
  ⟨(claim_C9_password_field "img" "msg" "pw").1.mpr (by decide),
   fun hmem => absurd ((claim_C9_password_field "img" "msg" "").1.mp hmem)
     (by decide)⟩

/-- Claim C10: when no file is selected or the message is empty,
`handleEncode` returns at once: the state (including the loading and
error fields) is unchanged and no request is issued; conversely a
request is only ever issued with a file selected and a non-empty
message. -/
theorem claim_C10_encode_guard (s : PVState) :
    ((s.file = none ∨ s.message = "") → handleEncodeStart s = (s, none)) ∧
    (∀ s2 req, handleEncodeStart s = (s2, some req) →
      s.file ≠ none ∧ s.message ≠ "") := by
  obtain ⟨file, msg, pwd, il, er, rm⟩ := s
  cases file with
  | none =>
      constructor
      · intro _
        rfl
      · intro s2 req h
        simp [handleEncodeStart] at h
  | some f =>
      by_cases hm : msg = ""
      · subst hm
        constructor
        · intro _
          simp [handleEncodeStart]
        · intro s2 req h
          simp [handleEncodeStart] at h
      · constructor
        · intro hor
          rcases hor with h1 | h1
          · exact absurd h1 (by simp)
          · exact absurd h1 hm
        · intro s2 req _
          exact ⟨by simp, hm⟩

/-- Witness for claim C10: a state with no file selected is returned
unchanged, with no request issued. -/
theorem claim_C10_encode_guard_witness :
    handleEncodeStart
        ⟨none, "hi", "pw", false, none, none⟩ =
      (⟨none, "hi", "pw", false, none, none⟩, none) :=
  (claim_C10_encode_guard ⟨none, "hi", "pw", false, none, none⟩).1 (Or.inl rfl)

end SecureKit
